import Mathlib

/-!
# Verification of the Sokoban level-editor core (`src/edit_plugin.rs`)

This file shallowly embeds the editing state machine of the level editor:
the `EditingState` resource with its `can_place`, `remove_object` and
`serialize` methods, and the editing commands performed by
`handle_edit_input` (place floor, place block, place goal, place player,
remove object).  Rust `HashMap<Position, Entity>` values are modelled as
association lists `List (Position × ℕ)` (entities are opaque handles,
modelled as naturals); `Option<(Position, Entity)>` becomes
`Option (Position × ℕ)`.  Grid coordinates are modelled as unbounded
integers.
-/

set_option autoImplicit false

namespace Sokoban

/-- Modelled from the spec: `Position` lives outside the provided source
(`src/edit_plugin.rs` imports it from the crate root).  The spec describes it
as "a pair of signed integers (x, y) identifying a grid cell", with
structural equality. -/
structure Position where
  x : ℤ
  y : ℤ
deriving DecidableEq, Repr

/-- Modelled from the spec: `Position::add` shifts a cell by a relative
offset, as used for cursor movement and for "the 8 neighbor offsets of
`position`". -/
def Position.add (p : Position) (dx dy : ℤ) : Position :=
  ⟨p.x + dx, p.y + dy⟩

/-- A Rust `HashMap<Position, Entity>`, as an association list. -/
abbrev HMap := List (Position × ℕ)

/-- `HashMap::contains_key`. -/
def containsKey (m : HMap) (p : Position) : Bool :=
  m.any fun e => e.1 = p

/-- `HashMap::get` / the value a key maps to. -/
def lookup : HMap → Position → Option ℕ
  | [], _ => none
  | e :: es, p => if e.1 = p then some e.2 else lookup es p

/-- `HashMap::remove`'s effect on the entries (dropping the key). -/
def eraseKey : HMap → Position → HMap
  | [], _ => []
  | e :: es, p => if e.1 = p then eraseKey es p else e :: eraseKey es p

/-- `HashMap::insert`'s effect on the entries (the key now maps to `v`,
all other keys are unchanged). -/
def insertKey (m : HMap) (p : Position) (v : ℕ) : HMap :=
  (p, v) :: eraseKey m p

/-- The `EditingState` resource of `src/edit_plugin.rs` (lines 7–14). -/
structure EditingState where
  floors : HMap
  walls : HMap
  blocks : HMap
  goals : HMap
  player : Option (Position × ℕ)
deriving DecidableEq, Repr

/-- `EditingState::default()`: all maps empty, no player. -/
def EditingState.empty : EditingState :=
  ⟨[], [], [], [], none⟩

/-- `EditingState::can_place` (lines 17–22): the cell has a floor, no
block, no goal, and the player (if any) is elsewhere.  The Rust
`self.player.is_none() || &self.player.unwrap().0 != position`
short-circuits, so `unwrap` is only evaluated when a player exists. -/
def can_place (s : EditingState) (p : Position) : Bool :=
  containsKey s.floors p && !containsKey s.blocks p && !containsKey s.goals p &&
    (s.player.isNone ||
      (match s.player with
       | none => false
       | some pe => decide (pe.1 ≠ p)))

/-- The condition `self.player.is_some() && self.player.unwrap().0 == *position`
(line 29): there is a player and it sits at `p`. -/
def playerIsAt (s : EditingState) (p : Position) : Bool :=
  match s.player with
  | none => false
  | some pe => pe.1 = p

/-- `EditingState::remove_object` (lines 24–36): checks blocks, then
goals, then the player, removing and returning the first occupant found at
`position`.  Returns the removed handle together with the updated state
(the Rust method mutates `self` and returns `Option<Entity>`). -/
def remove_object (s : EditingState) (p : Position) : Option ℕ × EditingState :=
  if containsKey s.blocks p then
    (lookup s.blocks p, { s with blocks := eraseKey s.blocks p })
  else if containsKey s.goals p then
    (lookup s.goals p, { s with goals := eraseKey s.goals p })
  else if playerIsAt s p then
    ((s.player.map Prod.snd), { s with player := none })
  else
    (none, s)

/-! ## Serialization (lines 38–67)

The Rust `serialize` computes `min`/`max` of the wall coordinates with
`.unwrap()` — a panic when `walls` is empty — and paints occupants with
`level[(y - min_y) as usize][(x - min_x) as usize] = v`, where a
coordinate outside the wall bounding box makes the `as usize` cast and
index panic (a negative difference wraps to a huge `usize`).  The model
returns `Option`: `none` models a Rust panic (the source function's
return type `Vec<Vec<i32>>` has no error variant). -/

/-- Minimum of a list of integers (`Iterator::min`): `none` on the empty
list, where the Rust caller's `.unwrap()` panics. -/
def listMin : List ℤ → Option ℤ
  | [] => none
  | x :: xs =>
    match listMin xs with
    | none => some x
    | some m => some (min x m)

/-- Maximum of a list of integers (`Iterator::max`): `none` on the empty
list, where the Rust caller's `.unwrap()` panics. -/
def listMax : List ℤ → Option ℤ
  | [] => none
  | x :: xs =>
    match listMax xs with
    | none => some x
    | some m => some (max x m)

/-- The keys of the `walls` map, as iterated by `self.walls.keys()`. -/
def wallKeys (s : EditingState) : List Position :=
  s.walls.map Prod.fst

/-- Write `v` at index `c` of a row (out-of-range writes change nothing;
`paint` only calls this in range). -/
def setRow : List ℤ → ℕ → ℤ → List ℤ
  | [], _, _ => []
  | _ :: xs, 0, v => v :: xs
  | x :: xs, n + 1, v => x :: setRow xs n v

/-- Write `v` into row `r`, column `c` of the grid. -/
def setCell : List (List ℤ) → ℕ → ℕ → ℤ → List (List ℤ)
  | [], _, _, _ => []
  | row :: rest, 0, c, v => setRow row c v :: rest
  | row :: rest, r + 1, c, v => row :: setCell rest r c v

/-- Row `r` of a grid (`[]` when out of range). -/
def rowAt : List (List ℤ) → ℕ → List ℤ
  | [], _ => []
  | row :: _, 0 => row
  | _ :: rest, n + 1 => rowAt rest n

/-- Entry `c` of a row (`0` when out of range). -/
def nthD : List ℤ → ℕ → ℤ
  | [], _ => 0
  | x :: _, 0 => x
  | _ :: xs, n + 1 => nthD xs n

/-- One assignment `level[row as usize][col as usize] = v`.  `none` models
the panic when the (signed) index is negative (the `as usize` cast wraps
to a huge value) or past the end. -/
def paint (g : List (List ℤ)) (row col : ℤ) (v : ℤ) : Option (List (List ℤ)) :=
  if 0 ≤ row ∧ row.toNat < g.length ∧ 0 ≤ col ∧
      col.toNat < (rowAt g row.toNat).length then
    some (setCell g row.toNat col.toNat v)
  else
    none

/-- One of the painting `for` loops of `serialize`: paint `v` at the
translated position of every element of `ps`. -/
def paintAll (g : List (List ℤ)) (mnx mny : ℤ) (ps : List Position) (v : ℤ) :
    Option (List (List ℤ)) :=
  match ps with
  | [] => some g
  | q :: rest =>
    match paint g (q.y - mny) (q.x - mnx) v with
    | none => none
    | some g' => paintAll g' mnx mny rest v

/-- `EditingState::serialize` (lines 38–67): bounding box over the wall
positions only, a zero-initialized grid of height `1 + max_y - min_y` and
width `1 + max_x - min_x`, then paint walls → 8, goals → 4, blocks → 2,
player → 1 (later loops overwrite earlier values).  `none` models a Rust
panic (`unwrap` of an empty iterator's min/max, or an out-of-range index
from the `as usize` casts). -/
def serialize (s : EditingState) : Option (List (List ℤ)) :=
  match listMin ((wallKeys s).map Position.x),
      listMax ((wallKeys s).map Position.x),
      listMin ((wallKeys s).map Position.y),
      listMax ((wallKeys s).map Position.y) with
  | some mnx, some mxx, some mny, some mxy =>
    let level := List.replicate (1 + mxy - mny).toNat
      (List.replicate (1 + mxx - mnx).toNat (0 : ℤ))
    match paintAll level mnx mny (wallKeys s) 8 with
    | none => none
    | some l1 =>
      match paintAll l1 mnx mny (s.goals.map Prod.fst) 4 with
      | none => none
      | some l2 =>
        match paintAll l2 mnx mny (s.blocks.map Prod.fst) 2 with
        | none => none
        | some l3 =>
          match s.player with
          | none => some l3
          | some (pp, _) => paint l3 (pp.y - mny) (pp.x - mnx) 1
  | _, _, _, _ => none

/-! ## Editing commands (`handle_edit_input`, lines 110–257)

Each key press performs one editing command on the `EditingState`.  The
entity ids returned by `Commands::spawn` are opaque handles; the model
leaves the allocation abstract by letting the command carry the handles
to use (a handle for the placed item, and for floor placement a handle
for each wall position that may be spawned). -/

/-- The `wall_combinations` offset list (lines 165–174). -/
def wall_combinations : List (ℤ × ℤ) :=
  [(-1, -1), (-1, 0), (-1, 1), (0, -1), (0, 1), (1, -1), (1, 0), (1, 1)]

/-- The 8-neighborhood of a cell, as positions. -/
def neighbors (p : Position) : List Position :=
  wall_combinations.map fun o => p.add o.1 o.2

/-- The body of the wall-creation loop (lines 175–194): for each offset,
spawn a wall at the neighbor iff it has neither a floor nor a wall. -/
def addWallAt (wh : Position → ℕ) (p : Position) (s : EditingState) (o : ℤ × ℤ) :
    EditingState :=
  let wp := p.add o.1 o.2
  if !containsKey s.floors wp && !containsKey s.walls wp then
    { s with walls := insertKey s.walls wp (wh wp) }
  else
    s

/-- The wall-creation loop of the `Z` branch, folding over the offsets. -/
def addWalls (wh : Position → ℕ) (p : Position) (offs : List (ℤ × ℤ))
    (s : EditingState) : EditingState :=
  offs.foldl (addWallAt wh p) s

/-- The `Z` branch (lines 151–194): guarded by the cell not already having
a floor; records the floor, removes any wall at the cell, then creates
border walls at bare 8-neighbors.  `fh` is the spawned floor entity, `wh`
gives the entity spawned for a wall at a given position. -/
def place_floor (s : EditingState) (p : Position) (fh : ℕ) (wh : Position → ℕ) :
    EditingState :=
  if containsKey s.floors p then s
  else
    let s1 := { s with floors := insertKey s.floors p fh }
    let s2 :=
      if containsKey s1.walls p then { s1 with walls := eraseKey s1.walls p }
      else s1
    addWalls wh p wall_combinations s2

/-- The `X` branch (lines 195–211): guarded by `can_place`; records a
block at the cursor. -/
def place_block (s : EditingState) (p : Position) (h : ℕ) : EditingState :=
  if can_place s p then { s with blocks := insertKey s.blocks p h } else s

/-- The `C` branch (lines 212–228): guarded by `can_place`; records a
goal at the cursor. -/
def place_goal (s : EditingState) (p : Position) (h : ℕ) : EditingState :=
  if can_place s p then { s with goals := insertKey s.goals p h } else s

/-- The `V` branch (lines 229–249): guarded by `can_place`; despawns the
previous player entity if any and records the new singleton player. -/
def place_player (s : EditingState) (p : Position) (h : ℕ) : EditingState :=
  if can_place s p then { s with player := some (p, h) } else s

/-- One editing command, carrying the handles the presentation layer
allocates for spawned entities. -/
inductive Cmd where
  | placeFloor (p : Position) (fh : ℕ) (wh : Position → ℕ)
  | placeBlock (p : Position) (h : ℕ)
  | placeGoal (p : Position) (h : ℕ)
  | placePlayer (p : Position) (h : ℕ)
  | removeObj (p : Position)

/-- Execute one command (one key-press branch of `handle_edit_input`). -/
def step (s : EditingState) : Cmd → EditingState
  | .placeFloor p fh wh => place_floor s p fh wh
  | .placeBlock p h => place_block s p h
  | .placeGoal p h => place_goal s p h
  | .placePlayer p h => place_player s p h
  | .removeObj p => (remove_object s p).2

/-- Execute a command sequence from a given state. -/
def run (cs : List Cmd) (s : EditingState) : EditingState :=
  cs.foldl step s

/-- States reachable from the empty editor (the resource inserted on
entering editing mode) by some command sequence. -/
def Reachable (s : EditingState) : Prop :=
  ∃ cs : List Cmd, s = run cs EditingState.empty

/-! ## Notions used in the statements -/

/-- `place_floor` with the wall-creation loop running over an arbitrary
offset list, to speak about reorderings of the 8 neighbor offsets. -/
def place_floor_with (offs : List (ℤ × ℤ)) (s : EditingState) (p : Position)
    (fh : ℕ) (wh : Position → ℕ) : EditingState :=
  if containsKey s.floors p then s
  else
    let s1 := { s with floors := insertKey s.floors p fh }
    let s2 :=
      if containsKey s1.walls p then { s1 with walls := eraseKey s1.walls p }
      else s1
    addWalls wh p offs s2

/-- Extensional equality of maps: a Rust `HashMap` exposes no entry order,
so two maps are the same state when every key maps to the same value. -/
def MapEquiv (m m' : HMap) : Prop :=
  ∀ q, lookup m q = lookup m' q

/-- Extensional equality of editor states. -/
def EquivState (s t : EditingState) : Prop :=
  MapEquiv s.floors t.floors ∧ MapEquiv s.walls t.walls ∧
    MapEquiv s.blocks t.blocks ∧ MapEquiv s.goals t.goals ∧ s.player = t.player

/-- The wall-border invariant: every 8-neighbor of a floor cell that is
not itself a floor holds a wall. -/
def borderInv (s : EditingState) : Prop :=
  ∀ p q, containsKey s.floors p = true → q ∈ neighbors p →
    containsKey s.floors q = false → containsKey s.walls q = true

/-- Some occupant (block, goal or player) sits at `p`. -/
def occupantAt (s : EditingState) (p : Position) : Prop :=
  containsKey s.blocks p = true ∨ containsKey s.goals p = true ∨
    playerIsAt s p = true

/-- Read a cell of the exported grid (row `r`, column `c`). -/
def cellAt (g : List (List ℤ)) (r c : ℕ) : ℤ :=
  nthD (rowAt g r) c

/-- The value the painting order of `serialize` leaves at an absolute
position: the player overwrites a block, which overwrites a goal, which
overwrites a wall; untouched cells (floors included) stay 0. -/
def cellValue (s : EditingState) (q : Position) : ℤ :=
  if playerIsAt s q then 1
  else if containsKey s.blocks q then 2
  else if containsKey s.goals q then 4
  else if containsKey s.walls q then 8
  else 0

/-- The round-trip scenario state: floor at the origin, the 8
auto-generated border walls around it, and a goal on the origin. -/
def exampleLevel : EditingState :=
  ⟨[(⟨0, 0⟩, 0)],
   [(⟨1, 1⟩, 1), (⟨1, 0⟩, 2), (⟨1, -1⟩, 3), (⟨0, 1⟩, 4),
    (⟨0, -1⟩, 5), (⟨-1, 1⟩, 6), (⟨-1, 0⟩, 7), (⟨-1, -1⟩, 8)],
   [], [(⟨0, 0⟩, 9)], none⟩

/-! ## Association-list lemmas -/

theorem containsKey_iff (m : HMap) (p : Position) :
    containsKey m p = true ↔ ∃ e ∈ m, e.1 = p := by
  simp [containsKey, List.any_eq_true]

theorem containsKey_eq_isSome_lookup (m : HMap) (p : Position) :
    containsKey m p = (lookup m p).isSome := by
  induction m with
  | nil => rfl
  | cons e es ih =>
    by_cases h : e.1 = p
    · simp [containsKey, lookup, h, List.any_cons]
    · simpa [containsKey, lookup, h, List.any_cons] using ih

theorem containsKey_mem_keys (m : HMap) (p : Position) :
    containsKey m p = true ↔ p ∈ m.map Prod.fst := by
  rw [containsKey_iff]
  constructor
  · rintro ⟨e, he, rfl⟩
    exact List.mem_map_of_mem Prod.fst he
  · intro hp
    obtain ⟨e, he, hfst⟩ := List.mem_map.mp hp
    exact ⟨e, he, hfst⟩

theorem lookup_eraseKey (m : HMap) (p q : Position) :
    lookup (eraseKey m p) q = if q = p then none else lookup m q := by
  induction m with
  | nil => simp [eraseKey, lookup]
  | cons e es ih =>
    by_cases hep : e.1 = p
    · by_cases hqp : q = p
      · subst hqp
        simp [eraseKey, hep, ih]
      · have heq : ¬(e.1 = q) := fun h => hqp (h.symm.trans hep)
        have hpq : ¬(p = q) := fun h => hqp h.symm
        simp [eraseKey, lookup, hep, ih, hqp, heq, hpq]
    · by_cases heq : e.1 = q
      · have hqp : ¬(q = p) := fun h => hep ((heq.trans h) : e.1 = p)
        simp [eraseKey, lookup, hep, heq, hqp]
      · simp [eraseKey, lookup, hep, heq, ih]

theorem lookup_insertKey (m : HMap) (p : Position) (v : ℕ) (q : Position) :
    lookup (insertKey m p v) q = if q = p then some v else lookup m q := by
  by_cases h : q = p
  · simp [insertKey, lookup, h]
  · have h' : ¬(p = q) := fun hh => h hh.symm
    simp [insertKey, lookup, h, h', lookup_eraseKey]

theorem containsKey_insertKey (m : HMap) (p : Position) (v : ℕ) (q : Position) :
    containsKey (insertKey m p v) q = (decide (q = p) || containsKey m q) := by
  rw [containsKey_eq_isSome_lookup, lookup_insertKey, containsKey_eq_isSome_lookup]
  by_cases h : q = p <;> simp [h]

theorem containsKey_eraseKey (m : HMap) (p q : Position) :
    containsKey (eraseKey m p) q = (!decide (q = p) && containsKey m q) := by
  rw [containsKey_eq_isSome_lookup, lookup_eraseKey, containsKey_eq_isSome_lookup]
  by_cases h : q = p <;> simp [h]

theorem lookup_isSome_of_containsKey {m : HMap} {p : Position}
    (h : containsKey m p = true) : ∃ v, lookup m p = some v := by
  rw [containsKey_eq_isSome_lookup] at h
  exact Option.isSome_iff_exists.mp h

/-! ## C3: characterization of `can_place` -/

/-- C3: for every editor state and every position `p`, `can_place p`
returns true iff `p` has a floor, `p` has no block, `p` has no goal, and
either no player exists or the player's position differs from `p`. -/
theorem claim_C3_can_place_iff (s : EditingState) (p : Position) :
    can_place s p = true ↔
      (containsKey s.floors p = true ∧ containsKey s.blocks p = false ∧
        containsKey s.goals p = false ∧
        (s.player = none ∨ ∃ q h, s.player = some (q, h) ∧ q ≠ p)) := by
  cases hpl : s.player with
  | none => simp [can_place, hpl, and_assoc]
  | some pe =>
    obtain ⟨q0, e0⟩ := pe
    simp [can_place, hpl, and_assoc]

/-! ## C5: failed placements are silent no-ops -/

/-- C5: for every position `p` with `can_place p` false, each of
`place_block p`, `place_goal p` and `place_player p` leaves the entire
editor state unchanged. -/
theorem claim_C5_place_noop (s : EditingState) (p : Position) (h : ℕ)
    (hc : can_place s p = false) :
    place_block s p h = s ∧ place_goal s p h = s ∧ place_player s p h = s := by
  simp [place_block, place_goal, place_player, hc]

theorem claim_C5_place_noop_witness :
    can_place EditingState.empty ⟨0, 0⟩ = false ∧
      (place_block EditingState.empty ⟨0, 0⟩ 3 = EditingState.empty ∧
        place_goal EditingState.empty ⟨0, 0⟩ 3 = EditingState.empty ∧
        place_player EditingState.empty ⟨0, 0⟩ 3 = EditingState.empty) :=
  ⟨by decide, claim_C5_place_noop EditingState.empty ⟨0, 0⟩ 3 (by decide)⟩

/-! ## C6: the player slot is a singleton -/

/-- C6: the editor records at most one player (the `player` field is an
`Option`, as in the source); placing a player at `p1` and then at `p2 ≠ p1`,
both placements passing their `can_place` guard, leaves exactly one player
entry, located at `p2` (the previous entry is overwritten regardless of
its position). -/
theorem claim_C6_player_singleton (s : EditingState) (p1 p2 : Position)
    (h1 h2 : ℕ) (_hne : p1 ≠ p2) (hc1 : can_place s p1 = true)
    (hc2 : can_place (place_player s p1 h1) p2 = true) :
    (place_player (place_player s p1 h1) p2 h2).player = some (p2, h2) := by
  simp only [place_player, hc1, if_true] at hc2 ⊢
  simp [hc2]

theorem claim_C6_player_singleton_witness :
    ((⟨0, 0⟩ : Position) ≠ ⟨1, 0⟩) ∧
      can_place ⟨[(⟨0, 0⟩, 0), (⟨1, 0⟩, 1)], [], [], [], none⟩ ⟨0, 0⟩ = true ∧
      can_place
        (place_player ⟨[(⟨0, 0⟩, 0), (⟨1, 0⟩, 1)], [], [], [], none⟩ ⟨0, 0⟩ 5)
        ⟨1, 0⟩ = true ∧
      (place_player
        (place_player ⟨[(⟨0, 0⟩, 0), (⟨1, 0⟩, 1)], [], [], [], none⟩ ⟨0, 0⟩ 5)
        ⟨1, 0⟩ 6).player = some (⟨1, 0⟩, 6) :=
  ⟨by decide, by decide, by decide,
    claim_C6_player_singleton _ _ _ _ _ (by decide) (by decide) (by decide)⟩

/-! ## C7: characterization of `remove_object` -/

/-- C7: `remove_object p` checks blocks, then goals, then the player; it
removes and returns the handle of the first category present at `p`,
returns `none` exactly when no occupant is at `p`, and never touches the
floors or walls maps. -/
theorem claim_C7_remove_object_spec (s : EditingState) (p : Position) :
    (remove_object s p).2.floors = s.floors ∧
    (remove_object s p).2.walls = s.walls ∧
    (remove_object s p).1 =
      (if containsKey s.blocks p then lookup s.blocks p
       else if containsKey s.goals p then lookup s.goals p
       else if playerIsAt s p then s.player.map Prod.snd
       else none) ∧
    ((remove_object s p).1 = none ↔
      (containsKey s.blocks p = false ∧ containsKey s.goals p = false ∧
        playerIsAt s p = false)) ∧
    (remove_object s p).2.blocks =
      (if containsKey s.blocks p then eraseKey s.blocks p else s.blocks) ∧
    (remove_object s p).2.goals =
      (if !containsKey s.blocks p && containsKey s.goals p then
        eraseKey s.goals p
       else s.goals) ∧
    (remove_object s p).2.player =
      (if !containsKey s.blocks p && !containsKey s.goals p && playerIsAt s p
       then none else s.player) := by
  by_cases hb : containsKey s.blocks p = true
  · obtain ⟨v, hv⟩ := lookup_isSome_of_containsKey hb
    simp [remove_object, hb, hv]
  · by_cases hg : containsKey s.goals p = true
    · obtain ⟨v, hv⟩ := lookup_isSome_of_containsKey hg
      simp [remove_object, hb, hg, hv]
    · by_cases hp : playerIsAt s p = true
      · cases hpl : s.player with
        | none => rw [playerIsAt, hpl] at hp; exact absurd hp (by simp)
        | some pe => simp [remove_object, hb, hg, hp, hpl]
      · simp [remove_object, hb, hg, hp]

/-! ## The wall-creation loop -/

theorem containsKey_eq_false_iff_lookup (m : HMap) (p : Position) :
    containsKey m p = false ↔ lookup m p = none := by
  rw [containsKey_eq_isSome_lookup]
  cases lookup m p <;> simp

theorem addWalls_nil (wh : Position → ℕ) (p : Position) (s : EditingState) :
    addWalls wh p [] s = s := rfl

theorem addWalls_cons (wh : Position → ℕ) (p : Position) (o : ℤ × ℤ)
    (os : List (ℤ × ℤ)) (s : EditingState) :
    addWalls wh p (o :: os) s = addWalls wh p os (addWallAt wh p s o) := rfl

theorem addWallAt_fields (wh : Position → ℕ) (p : Position) (s : EditingState)
    (o : ℤ × ℤ) :
    (addWallAt wh p s o).floors = s.floors ∧
      (addWallAt wh p s o).blocks = s.blocks ∧
      (addWallAt wh p s o).goals = s.goals ∧
      (addWallAt wh p s o).player = s.player := by
  simp only [addWallAt]
  split <;> simp

theorem addWallAt_walls_lookup (wh : Position → ℕ) (p : Position)
    (s : EditingState) (o : ℤ × ℤ) (q : Position) :
    lookup (addWallAt wh p s o).walls q =
      if q = p.add o.1 o.2 ∧ containsKey s.floors q = false ∧
          lookup s.walls q = none
      then some (wh q) else lookup s.walls q := by
  simp only [addWallAt]
  split
  case isTrue h =>
    obtain ⟨hf, hw⟩ : containsKey s.floors (p.add o.1 o.2) = false ∧
        containsKey s.walls (p.add o.1 o.2) = false := by
      simpa [Bool.and_eq_true] using h
    by_cases hq : q = p.add o.1 o.2
    · subst hq
      rw [lookup_insertKey, if_pos rfl,
        if_pos ⟨rfl, hf, (containsKey_eq_false_iff_lookup _ _).mp hw⟩]
    · rw [lookup_insertKey, if_neg hq, if_neg (fun hc => hq hc.1)]
  case isFalse h =>
    by_cases hq : q = p.add o.1 o.2
    · subst hq
      rw [if_neg]
      rintro ⟨-, hf, hw⟩
      exact h (by
        simp [hf, (containsKey_eq_false_iff_lookup _ _).mpr hw])
    · rw [if_neg (fun hc => hq hc.1)]

theorem addWalls_floors (wh : Position → ℕ) (p : Position)
    (offs : List (ℤ × ℤ)) : ∀ s, (addWalls wh p offs s).floors = s.floors := by
  induction offs with
  | nil => intro s; rfl
  | cons o os ih =>
    intro s
    rw [addWalls_cons, ih, (addWallAt_fields wh p s o).1]

theorem addWalls_blocks (wh : Position → ℕ) (p : Position)
    (offs : List (ℤ × ℤ)) : ∀ s, (addWalls wh p offs s).blocks = s.blocks := by
  induction offs with
  | nil => intro s; rfl
  | cons o os ih =>
    intro s
    rw [addWalls_cons, ih, (addWallAt_fields wh p s o).2.1]

theorem addWalls_goals (wh : Position → ℕ) (p : Position)
    (offs : List (ℤ × ℤ)) : ∀ s, (addWalls wh p offs s).goals = s.goals := by
  induction offs with
  | nil => intro s; rfl
  | cons o os ih =>
    intro s
    rw [addWalls_cons, ih, (addWallAt_fields wh p s o).2.2.1]

theorem addWalls_player (wh : Position → ℕ) (p : Position)
    (offs : List (ℤ × ℤ)) : ∀ s, (addWalls wh p offs s).player = s.player := by
  induction offs with
  | nil => intro s; rfl
  | cons o os ih =>
    intro s
    rw [addWalls_cons, ih, (addWallAt_fields wh p s o).2.2.2]

/-- Pointwise description of the wall-creation loop: a wall handle appears
at `q` exactly when `q` is reached by one of the offsets and had neither a
floor nor a wall; all other cells are untouched.  The description does not
depend on the order of `offs`. -/
theorem addWalls_walls_lookup (wh : Position → ℕ) (p : Position)
    (offs : List (ℤ × ℤ)) : ∀ (s : EditingState) (q : Position),
    lookup (addWalls wh p offs s).walls q =
      if (∃ o ∈ offs, q = p.add o.1 o.2) ∧ containsKey s.floors q = false ∧
          lookup s.walls q = none
      then some (wh q) else lookup s.walls q := by
  induction offs with
  | nil => intro s q; simp [addWalls_nil]
  | cons o os ih =>
    intro s q
    rw [addWalls_cons, ih, (addWallAt_fields wh p s o).1]
    have hs1 := addWallAt_walls_lookup wh p s o q
    by_cases hq : q = p.add o.1 o.2
    · by_cases hf : containsKey s.floors q = false
      · by_cases hw : lookup s.walls q = none
        · have hs1' : lookup (addWallAt wh p s o).walls q = some (wh q) := by
            rw [hs1, if_pos ⟨hq, hf, hw⟩]
          rw [hs1',
            if_neg (by rintro ⟨-, -, hcon⟩; exact Option.noConfusion hcon),
            if_pos ⟨⟨o, List.mem_cons_self o os, hq⟩, hf, hw⟩]
        · have hs1' : lookup (addWallAt wh p s o).walls q = lookup s.walls q := by
            rw [hs1, if_neg (by rintro ⟨-, -, hcon⟩; exact hw hcon)]
          rw [hs1',
            if_neg (by rintro ⟨-, -, hcon⟩; exact hw hcon),
            if_neg (by rintro ⟨-, -, hcon⟩; exact hw hcon)]
      · have hs1' : lookup (addWallAt wh p s o).walls q = lookup s.walls q := by
          rw [hs1, if_neg (by rintro ⟨-, hcon, -⟩; exact hf hcon)]
        rw [hs1',
          if_neg (by rintro ⟨-, hcon, -⟩; exact hf hcon),
          if_neg (by rintro ⟨-, hcon, -⟩; exact hf hcon)]
    · have hs1' : lookup (addWallAt wh p s o).walls q = lookup s.walls q := by
        rw [hs1, if_neg (fun hc => hq hc.1)]
      rw [hs1']
      have hmem : (∃ o' ∈ os, q = p.add o'.1 o'.2) ↔
          (∃ o' ∈ o :: os, q = p.add o'.1 o'.2) := by
        constructor
        · rintro ⟨o', ho', rfl⟩
          exact ⟨o', List.mem_cons_of_mem o ho', rfl⟩
        · rintro ⟨o', ho', rfl⟩
          rcases List.mem_cons.mp ho' with h | h
          · exact absurd (h ▸ rfl) hq
          · exact ⟨o', h, rfl⟩
      rw [if_congr (and_congr hmem Iff.rfl) rfl rfl]

/-! ## C9: idempotence and order-independence of floor placement -/

theorem place_floor_floors_contains (s : EditingState) (p : Position)
    (fh : ℕ) (wh : Position → ℕ) :
    containsKey (place_floor s p fh wh).floors p = true := by
  simp only [place_floor]
  split
  case isTrue h => exact h
  case isFalse h =>
    rw [addWalls_floors]
    split <;> simp [containsKey_insertKey]

theorem place_floor_idem (s : EditingState) (p : Position) (fh fh' : ℕ)
    (wh wh' : Position → ℕ) :
    place_floor (place_floor s p fh wh) p fh' wh' = place_floor s p fh wh := by
  conv_lhs => rw [place_floor]
  rw [if_pos (place_floor_floors_contains s p fh wh)]

theorem equivState_refl (s : EditingState) : EquivState s s :=
  ⟨fun _ => rfl, fun _ => rfl, fun _ => rfl, fun _ => rfl, rfl⟩

theorem place_floor_with_equiv (offs : List (ℤ × ℤ))
    (hperm : offs.Perm wall_combinations) (s : EditingState) (p : Position)
    (fh : ℕ) (wh : Position → ℕ) :
    EquivState (place_floor_with offs s p fh wh) (place_floor s p fh wh) := by
  by_cases hfl : containsKey s.floors p = true
  · simp only [place_floor_with, place_floor, if_pos hfl]
    exact equivState_refl s
  · simp only [place_floor_with, place_floor, if_neg hfl]
    refine ⟨?_, ?_, ?_, ?_, ?_⟩
    · intro q
      rw [addWalls_floors, addWalls_floors]
    · intro q
      rw [addWalls_walls_lookup, addWalls_walls_lookup]
      have hmem : (∃ o ∈ offs, q = p.add o.1 o.2) ↔
          (∃ o ∈ wall_combinations, q = p.add o.1 o.2) := by
        constructor
        · rintro ⟨o, ho, rfl⟩
          exact ⟨o, hperm.mem_iff.mp ho, rfl⟩
        · rintro ⟨o, ho, rfl⟩
          exact ⟨o, hperm.mem_iff.mpr ho, rfl⟩
      exact if_congr (and_congr hmem Iff.rfl) rfl rfl
    · intro q
      rw [addWalls_blocks, addWalls_blocks]
    · intro q
      rw [addWalls_goals, addWalls_goals]
    · rw [addWalls_player, addWalls_player]

/-- C9: placing a floor at `p` twice yields the same state — and so the
same `floors`/`walls` key-membership — as placing it once (the second `Z`
press is guarded out by the floor recorded at `p`), and the result of
floor placement does not depend on the order in which the 8 neighbor
offsets are processed (stated up to map extensionality, which is all the
entry order a Rust `HashMap` exposes). -/
theorem claim_C9_idempotent_order_independent (s : EditingState)
    (p : Position) (fh fh' : ℕ) (wh wh' : Position → ℕ)
    (offs : List (ℤ × ℤ)) (hperm : offs.Perm wall_combinations) :
    place_floor (place_floor s p fh wh) p fh' wh' = place_floor s p fh wh ∧
      EquivState (place_floor_with offs s p fh wh) (place_floor s p fh wh) :=
  ⟨place_floor_idem s p fh fh' wh wh', place_floor_with_equiv offs hperm s p fh wh⟩

/-! ## Pointwise description of `place_floor` -/

theorem place_floor_floors (s : EditingState) (p : Position) (fh : ℕ)
    (wh : Position → ℕ) :
    (place_floor s p fh wh).floors =
      if containsKey s.floors p then s.floors else insertKey s.floors p fh := by
  simp only [place_floor]
  split
  case isTrue h => rfl
  case isFalse h =>
    rw [addWalls_floors]
    split <;> rfl

theorem place_floor_fields (s : EditingState) (p : Position) (fh : ℕ)
    (wh : Position → ℕ) :
    (place_floor s p fh wh).blocks = s.blocks ∧
      (place_floor s p fh wh).goals = s.goals ∧
      (place_floor s p fh wh).player = s.player := by
  simp only [place_floor]
  split
  · exact ⟨rfl, rfl, rfl⟩
  · refine ⟨?_, ?_, ?_⟩
    · rw [addWalls_blocks]; split <;> rfl
    · rw [addWalls_goals]; split <;> rfl
    · rw [addWalls_player]; split <;> rfl

theorem place_floor_walls_lookup (s : EditingState) (p : Position) (fh : ℕ)
    (wh : Position → ℕ) (q : Position) (hnf : ¬(containsKey s.floors p = true)) :
    lookup (place_floor s p fh wh).walls q =
      if (∃ o ∈ wall_combinations, q = p.add o.1 o.2) ∧
          containsKey (insertKey s.floors p fh) q = false ∧
          (if q = p then none else lookup s.walls q) = (none : Option ℕ)
      then some (wh q)
      else if q = p then none else lookup s.walls q := by
  simp only [place_floor, if_neg hnf]
  rw [addWalls_walls_lookup]
  split
  case isTrue hw =>
    dsimp only
    rw [lookup_eraseKey]
  case isFalse hw =>
    dsimp only
    have hwn : lookup s.walls p = none :=
      (containsKey_eq_false_iff_lookup s.walls p).mp (Bool.eq_false_iff.mpr hw)
    by_cases hqp : q = p
    · subst hqp
      rw [if_pos rfl, hwn]
    · rw [if_neg hqp]

theorem place_block_fields (s : EditingState) (p : Position) (h : ℕ) :
    (place_block s p h).floors = s.floors ∧
      (place_block s p h).walls = s.walls ∧
      (place_block s p h).goals = s.goals ∧
      (place_block s p h).player = s.player := by
  simp only [place_block]
  split <;> simp

theorem place_goal_fields (s : EditingState) (p : Position) (h : ℕ) :
    (place_goal s p h).floors = s.floors ∧
      (place_goal s p h).walls = s.walls ∧
      (place_goal s p h).blocks = s.blocks ∧
      (place_goal s p h).player = s.player := by
  simp only [place_goal]
  split <;> simp

theorem place_player_fields (s : EditingState) (p : Position) (h : ℕ) :
    (place_player s p h).floors = s.floors ∧
      (place_player s p h).walls = s.walls ∧
      (place_player s p h).blocks = s.blocks ∧
      (place_player s p h).goals = s.goals := by
  simp only [place_player]
  split <;> simp

theorem remove_object_fields (s : EditingState) (p : Position) :
    (remove_object s p).2.floors = s.floors ∧
      (remove_object s p).2.walls = s.walls := by
  simp only [remove_object]
  split_ifs <;> exact ⟨rfl, rfl⟩

/-! ## Reachability scaffolding -/

theorem run_preserves (P : EditingState → Prop)
    (hstep : ∀ s c, P s → P (step s c)) :
    ∀ (cs : List Cmd) (s : EditingState), P s → P (run cs s) := by
  intro cs
  induction cs with
  | nil => intro s h; exact h
  | cons c cs ih => intro s h; exact ih (step s c) (hstep s c h)

theorem reachable_invariant (P : EditingState → Prop)
    (hempty : P EditingState.empty)
    (hstep : ∀ s c, P s → P (step s c)) :
    ∀ s, Reachable s → P s := by
  rintro s ⟨cs, rfl⟩
  exact run_preserves P hstep cs EditingState.empty hempty

theorem neighbor_ne (p q : Position) (hq : q ∈ neighbors p) : ¬(q = p) := by
  obtain ⟨o, ho, hqo⟩ := List.mem_map.mp hq
  have hall : ∀ o' ∈ wall_combinations, ¬(o'.1 = 0 ∧ o'.2 = 0) := by decide
  intro hqp
  rw [hqp] at hqo
  have hx : p.x + o.1 = p.x := congrArg Position.x hqo
  have hy : p.y + o.2 = p.y := congrArg Position.y hqo
  exact hall o ho ⟨by omega, by omega⟩

theorem not_self_neighbor (p : Position) :
    ¬(∃ o ∈ wall_combinations, p = p.add o.1 o.2) := by
  rintro ⟨o, ho, hp⟩
  have hall : ∀ o' ∈ wall_combinations, ¬(o'.1 = 0 ∧ o'.2 = 0) := by decide
  have hx : p.x = p.x + o.1 := congrArg Position.x hp
  have hy : p.y = p.y + o.2 := congrArg Position.y hp
  exact hall o ho ⟨by omega, by omega⟩

/-! ## Minima and maxima of coordinate lists -/

theorem listMin_eq_none_iff (l : List ℤ) : listMin l = none ↔ l = [] := by
  cases l with
  | nil => simp [listMin]
  | cons x xs => cases h : listMin xs <;> simp [listMin, h]

theorem listMax_eq_none_iff (l : List ℤ) : listMax l = none ↔ l = [] := by
  cases l with
  | nil => simp [listMax]
  | cons x xs => cases h : listMax xs <;> simp [listMax, h]

theorem listMin_isSome (l : List ℤ) (h : l ≠ []) : ∃ m, listMin l = some m := by
  cases hm : listMin l with
  | none => exact absurd ((listMin_eq_none_iff l).mp hm) h
  | some m => exact ⟨m, rfl⟩

theorem listMax_isSome (l : List ℤ) (h : l ≠ []) : ∃ m, listMax l = some m := by
  cases hm : listMax l with
  | none => exact absurd ((listMax_eq_none_iff l).mp hm) h
  | some m => exact ⟨m, rfl⟩

theorem listMin_mem : ∀ {l : List ℤ} {m : ℤ}, listMin l = some m → m ∈ l := by
  intro l
  induction l with
  | nil => intro m h; simp [listMin] at h
  | cons x xs ih =>
    intro m h
    rw [listMin] at h
    cases hm : listMin xs with
    | none =>
      rw [hm] at h
      simp at h
      subst h
      exact List.mem_cons_self x xs
    | some m' =>
      rw [hm] at h
      simp at h
      subst h
      rcases min_choice x m' with hc | hc <;> rw [hc]
      · exact List.mem_cons_self x xs
      · exact List.mem_cons_of_mem x (ih hm)

theorem listMax_mem : ∀ {l : List ℤ} {m : ℤ}, listMax l = some m → m ∈ l := by
  intro l
  induction l with
  | nil => intro m h; simp [listMax] at h
  | cons x xs ih =>
    intro m h
    rw [listMax] at h
    cases hm : listMax xs with
    | none =>
      rw [hm] at h
      simp at h
      subst h
      exact List.mem_cons_self x xs
    | some m' =>
      rw [hm] at h
      simp at h
      subst h
      rcases max_choice x m' with hc | hc <;> rw [hc]
      · exact List.mem_cons_self x xs
      · exact List.mem_cons_of_mem x (ih hm)

theorem listMin_le : ∀ {l : List ℤ} {m : ℤ}, listMin l = some m →
    ∀ y ∈ l, m ≤ y := by
  intro l
  induction l with
  | nil => intro m h; simp [listMin] at h
  | cons x xs ih =>
    intro m h y hy
    rw [listMin] at h
    cases hm : listMin xs with
    | none =>
      rw [hm] at h
      simp at h
      subst h
      have hxs : xs = [] := (listMin_eq_none_iff xs).mp hm
      subst hxs
      rcases List.mem_cons.mp hy with rfl | hy2
      · exact le_refl y
      · simp at hy2
    | some m' =>
      rw [hm] at h
      simp at h
      subst h
      rcases List.mem_cons.mp hy with rfl | hy2
      · exact min_le_left y m'
      · exact le_trans (min_le_right x m') (ih hm y hy2)

theorem listMax_ge : ∀ {l : List ℤ} {m : ℤ}, listMax l = some m →
    ∀ y ∈ l, y ≤ m := by
  intro l
  induction l with
  | nil => intro m h; simp [listMax] at h
  | cons x xs ih =>
    intro m h y hy
    rw [listMax] at h
    cases hm : listMax xs with
    | none =>
      rw [hm] at h
      simp at h
      subst h
      have hxs : xs = [] := (listMax_eq_none_iff xs).mp hm
      subst hxs
      rcases List.mem_cons.mp hy with rfl | hy2
      · exact le_refl y
      · simp at hy2
    | some m' =>
      rw [hm] at h
      simp at h
      subst h
      rcases List.mem_cons.mp hy with rfl | hy2
      · exact le_max_left y m'
      · exact le_trans (ih hm y hy2) (le_max_right x m')

/-! ## Grid lemmas -/

theorem setRow_length : ∀ (xs : List ℤ) (c : ℕ) (v : ℤ),
    (setRow xs c v).length = xs.length := by
  intro xs
  induction xs with
  | nil => intro c v; rfl
  | cons x xs ih =>
    intro c v
    cases c with
    | zero => rfl
    | succ n => simp [setRow, ih]

theorem nthD_setRow : ∀ (xs : List ℤ) (c : ℕ) (v : ℤ) (j : ℕ), c < xs.length →
    nthD (setRow xs c v) j = if j = c then v else nthD xs j := by
  intro xs
  induction xs with
  | nil => intro c v j hc; simp at hc
  | cons x xs ih =>
    intro c v j hc
    cases c with
    | zero =>
      cases j with
      | zero => rfl
      | succ j' => simp [setRow, nthD]
    | succ c' =>
      cases j with
      | zero => simp [setRow, nthD]
      | succ j' =>
        have hlt : c' < xs.length := by simpa using hc
        show nthD (setRow xs c' v) j' = if j' + 1 = c' + 1 then v else nthD xs j'
        rw [ih c' v j' hlt]
        by_cases hj : j' = c'
        · rw [if_pos hj, if_pos (by omega)]
        · rw [if_neg hj, if_neg (by omega)]

theorem setCell_length : ∀ (g : List (List ℤ)) (r c : ℕ) (v : ℤ),
    (setCell g r c v).length = g.length := by
  intro g
  induction g with
  | nil => intro r c v; rfl
  | cons row rest ih =>
    intro r c v
    cases r with
    | zero => rfl
    | succ r' => simp [setCell, ih]

theorem setCell_rows (w : ℕ) : ∀ (g : List (List ℤ)) (r c : ℕ) (v : ℤ),
    (∀ row ∈ g, row.length = w) → ∀ row ∈ setCell g r c v, row.length = w := by
  intro g
  induction g with
  | nil => intro r c v h row hrow; simp [setCell] at hrow
  | cons row0 rest ih =>
    intro r c v h row hrow
    cases r with
    | zero =>
      rcases List.mem_cons.mp hrow with rfl | hmem
      · rw [setRow_length]
        exact h row0 (List.mem_cons_self row0 rest)
      · exact h row (List.mem_cons_of_mem row0 hmem)
    | succ r' =>
      rcases List.mem_cons.mp hrow with rfl | hmem
      · exact h row (List.mem_cons_self row rest)
      · exact ih r' c v (fun rw hrw => h rw (List.mem_cons_of_mem row0 hrw))
          row hmem

theorem cellAt_setCell : ∀ (g : List (List ℤ)) (r c : ℕ) (v : ℤ) (i j : ℕ),
    r < g.length → c < (rowAt g r).length →
    cellAt (setCell g r c v) i j = if i = r ∧ j = c then v else cellAt g i j := by
  intro g
  induction g with
  | nil => intro r c v i j hr hc; simp at hr
  | cons row rest ih =>
    intro r c v i j hr hc
    cases r with
    | zero =>
      cases i with
      | zero =>
        show nthD (setRow row c v) j = if (0 : ℕ) = 0 ∧ j = c then v else nthD row j
        rw [nthD_setRow row c v j hc]
        by_cases hj : j = c
        · rw [if_pos hj, if_pos ⟨rfl, hj⟩]
        · rw [if_neg hj, if_neg (fun hh => hj hh.2)]
      | succ i' =>
        show nthD (rowAt rest i') j =
          if i' + 1 = 0 ∧ j = c then v else nthD (rowAt rest i') j
        rw [if_neg (fun hh => Nat.succ_ne_zero i' hh.1)]
    | succ r' =>
      cases i with
      | zero =>
        show nthD row j = if (0 : ℕ) = r' + 1 ∧ j = c then v else nthD row j
        rw [if_neg (fun hh => Nat.succ_ne_zero r' hh.1.symm)]
      | succ i' =>
        have hr' : r' < rest.length := by simpa using hr
        have hc' : c < (rowAt rest r').length := hc
        show cellAt (setCell rest r' c v) i' j =
          if i' + 1 = r' + 1 ∧ j = c then v else cellAt rest i' j
        rw [ih r' c v i' j hr' hc']
        by_cases hij : i' = r' ∧ j = c
        · rw [if_pos hij, if_pos ⟨by omega, hij.2⟩]
        · rw [if_neg hij, if_neg (fun hh => hij ⟨by omega, hh.2⟩)]

theorem nthD_replicate (w : ℕ) : ∀ c, nthD (List.replicate w (0 : ℤ)) c = 0 := by
  induction w with
  | zero => intro c; rfl
  | succ w ih =>
    intro c
    cases c with
    | zero => rfl
    | succ c' => exact ih c'

theorem rowAt_replicate (row : List ℤ) : ∀ (h : ℕ) (r : ℕ),
    rowAt (List.replicate h row) r = if r < h then row else [] := by
  intro h
  induction h with
  | zero => intro r; simp [rowAt]
  | succ h ih =>
    intro r
    cases r with
    | zero => simp [List.replicate, rowAt]
    | succ r' =>
      show rowAt (List.replicate h row) r' = if r' + 1 < h + 1 then row else []
      rw [ih r']
      by_cases hr : r' < h
      · rw [if_pos hr, if_pos (by omega)]
      · rw [if_neg hr, if_neg (by omega)]

theorem cellAt_replicate (h w : ℕ) (r c : ℕ) :
    cellAt (List.replicate h (List.replicate w (0 : ℤ))) r c = 0 := by
  rw [cellAt, rowAt_replicate]
  by_cases hr : r < h
  · rw [if_pos hr, nthD_replicate]
  · rw [if_neg hr]; rfl

theorem rowAt_mem : ∀ (g : List (List ℤ)) (r : ℕ), r < g.length →
    rowAt g r ∈ g := by
  intro g
  induction g with
  | nil => intro r hr; simp at hr
  | cons row rest ih =>
    intro r hr
    cases r with
    | zero => exact List.mem_cons_self row rest
    | succ r' => exact List.mem_cons_of_mem row (ih r' (by simpa using hr))

theorem Position.ext_xy {p q : Position} (hx : p.x = q.x) (hy : p.y = q.y) :
    p = q := by
  cases p
  cases q
  simp_all

/-! ## Painting -/

theorem paint_spec (g : List (List ℤ)) (row col : ℤ) (v : ℤ) (hgt wd : ℕ)
    (hlen : g.length = hgt) (hrows : ∀ r ∈ g, r.length = wd)
    (hrow0 : 0 ≤ row) (hrow1 : row.toNat < hgt)
    (hcol0 : 0 ≤ col) (hcol1 : col.toNat < wd) :
    paint g row col v = some (setCell g row.toNat col.toNat v) ∧
      (setCell g row.toNat col.toNat v).length = hgt ∧
      (∀ r ∈ setCell g row.toNat col.toNat v, r.length = wd) ∧
      ∀ i j : ℕ, cellAt (setCell g row.toNat col.toNat v) i j =
        if i = row.toNat ∧ j = col.toNat then v else cellAt g i j := by
  have hr : row.toNat < g.length := by rw [hlen]; exact hrow1
  have hc : col.toNat < (rowAt g row.toNat).length := by
    rw [hrows _ (rowAt_mem g row.toNat hr)]
    exact hcol1
  refine ⟨?_, ?_, ?_, ?_⟩
  · rw [paint, if_pos ⟨hrow0, hr, hcol0, hc⟩]
  · rw [setCell_length, hlen]
  · exact setCell_rows wd g row.toNat col.toNat v hrows
  · intro i j
    exact cellAt_setCell g row.toNat col.toNat v i j hr hc

theorem paintAll_spec (mnx mny : ℤ) (v : ℤ) (hgt wd : ℕ) :
    ∀ (ps : List Position) (g : List (List ℤ)),
    g.length = hgt → (∀ r ∈ g, r.length = wd) →
    (∀ q ∈ ps, 0 ≤ q.y - mny ∧ (q.y - mny).toNat < hgt ∧
      0 ≤ q.x - mnx ∧ (q.x - mnx).toNat < wd) →
    ∃ g', paintAll g mnx mny ps v = some g' ∧
      g'.length = hgt ∧ (∀ r ∈ g', r.length = wd) ∧
      ∀ i j : ℕ, i < hgt → j < wd →
        cellAt g' i j =
          if Position.mk (mnx + j) (mny + i) ∈ ps then v else cellAt g i j := by
  intro ps
  induction ps with
  | nil =>
    intro g hlen hrows hin
    refine ⟨g, rfl, hlen, hrows, ?_⟩
    intro i j hi hj
    rw [if_neg (by simp)]
  | cons q rest ih =>
    intro g hlen hrows hin
    obtain ⟨h1, h2, h3, h4⟩ := hin q (List.mem_cons_self q rest)
    obtain ⟨hpaint, hlen1, hrows1, hcell1⟩ :=
      paint_spec g (q.y - mny) (q.x - mnx) v hgt wd hlen hrows h1 h2 h3 h4
    obtain ⟨g', hg', hlen', hrows', hcell'⟩ :=
      ih (setCell g (q.y - mny).toNat (q.x - mnx).toNat v) hlen1 hrows1
        (fun q' hq' => hin q' (List.mem_cons_of_mem q hq'))
    refine ⟨g', ?_, hlen', hrows', ?_⟩
    · rw [paintAll, hpaint]
      exact hg'
    · intro i j hi hj
      rw [hcell' i j hi hj, hcell1 i j]
      by_cases hmem : Position.mk (mnx + j) (mny + i) ∈ rest
      · rw [if_pos hmem, if_pos (List.mem_cons_of_mem q hmem)]
      · rw [if_neg hmem]
        by_cases hq : Position.mk (mnx + j) (mny + i) = q
        · have hqy : q.y = mny + i := by rw [← hq]
          have hqx : q.x = mnx + j := by rw [← hq]
          have hiq : i = (q.y - mny).toNat := by omega
          have hjq : j = (q.x - mnx).toNat := by omega
          rw [if_pos ⟨hiq, hjq⟩,
            if_pos (by rw [hq]; exact List.mem_cons_self q rest)]
        · have hne : ¬(i = (q.y - mny).toNat ∧ j = (q.x - mnx).toNat) := by
            rintro ⟨hir, hjc⟩
            exact hq (Position.ext_xy (by show mnx + j = q.x; omega)
              (by show mny + i = q.y; omega))
          have hnm : ¬(Position.mk (mnx + j) (mny + i) ∈ q :: rest) := by
            intro hmm
            rcases List.mem_cons.mp hmm with hh | hh
            · exact hq hh
            · exact hmem hh
          rw [if_neg hne, if_neg hnm]

/-- Full characterization of `serialize` on states whose occupants lie in
the wall bounding box: it succeeds and produces the rectangular grid whose
cells are described pointwise by `cellValue` (paint order walls 8, goals 4,
blocks 2, player 1, later paints overwriting earlier ones). -/
theorem serialize_spec (s : EditingState) (mnx mxx mny mxy : ℤ)
    (hmnx : listMin ((wallKeys s).map Position.x) = some mnx)
    (hmxx : listMax ((wallKeys s).map Position.x) = some mxx)
    (hmny : listMin ((wallKeys s).map Position.y) = some mny)
    (hmxy : listMax ((wallKeys s).map Position.y) = some mxy)
    (hocc : ∀ q, occupantAt s q →
      mnx ≤ q.x ∧ q.x ≤ mxx ∧ mny ≤ q.y ∧ q.y ≤ mxy) :
    ∃ g, serialize s = some g ∧
      g.length = (1 + mxy - mny).toNat ∧
      (∀ row ∈ g, row.length = (1 + mxx - mnx).toNat) ∧
      ∀ i j : ℕ, i < (1 + mxy - mny).toNat → j < (1 + mxx - mnx).toNat →
        cellAt g i j = cellValue s (Position.mk (mnx + j) (mny + i)) := by
  have hwb : ∀ q ∈ wallKeys s, mnx ≤ q.x ∧ q.x ≤ mxx ∧ mny ≤ q.y ∧ q.y ≤ mxy := by
    intro q hq
    exact ⟨listMin_le hmnx q.x (List.mem_map_of_mem Position.x hq),
      listMax_ge hmxx q.x (List.mem_map_of_mem Position.x hq),
      listMin_le hmny q.y (List.mem_map_of_mem Position.y hq),
      listMax_ge hmxy q.y (List.mem_map_of_mem Position.y hq)⟩
  have hconv : ∀ q : Position,
      mnx ≤ q.x ∧ q.x ≤ mxx ∧ mny ≤ q.y ∧ q.y ≤ mxy →
      0 ≤ q.y - mny ∧ (q.y - mny).toNat < (1 + mxy - mny).toNat ∧
        0 ≤ q.x - mnx ∧ (q.x - mnx).toNat < (1 + mxx - mnx).toNat := by
    rintro q ⟨ha, hb, hc, hd⟩
    omega
  have hlen0 : (List.replicate (1 + mxy - mny).toNat
      (List.replicate (1 + mxx - mnx).toNat (0 : ℤ))).length =
      (1 + mxy - mny).toNat := List.length_replicate _ _
  have hrows0 : ∀ r ∈ List.replicate (1 + mxy - mny).toNat
      (List.replicate (1 + mxx - mnx).toNat (0 : ℤ)),
      r.length = (1 + mxx - mnx).toNat := by
    intro r hr
    rw [List.eq_of_mem_replicate hr]
    exact List.length_replicate _ _
  obtain ⟨l1, hl1, hlen1, hrows1, hcell1⟩ :=
    paintAll_spec mnx mny 8 (1 + mxy - mny).toNat (1 + mxx - mnx).toNat
      (wallKeys s) _ hlen0 hrows0 (fun q hq => hconv q (hwb q hq))
  obtain ⟨l2, hl2, hlen2, hrows2, hcell2⟩ :=
    paintAll_spec mnx mny 4 (1 + mxy - mny).toNat (1 + mxx - mnx).toNat
      (s.goals.map Prod.fst) l1 hlen1 hrows1
      (fun q hq => hconv q (hocc q
        (Or.inr (Or.inl ((containsKey_mem_keys _ _).mpr hq)))))
  obtain ⟨l3, hl3, hlen3, hrows3, hcell3⟩ :=
    paintAll_spec mnx mny 2 (1 + mxy - mny).toNat (1 + mxx - mnx).toNat
      (s.blocks.map Prod.fst) l2 hlen2 hrows2
      (fun q hq => hconv q (hocc q
        (Or.inl ((containsKey_mem_keys _ _).mpr hq))))
  have hser : serialize s =
      (match s.player with
       | none => some l3
       | some (pp, _) => paint l3 (pp.y - mny) (pp.x - mnx) 1) := by
    simp only [serialize, hmnx, hmxx, hmny, hmxy, hl1, hl2, hl3]
  have hlayers : ∀ x : Position,
      (if x ∈ s.blocks.map Prod.fst then (2 : ℤ)
       else if x ∈ s.goals.map Prod.fst then 4
       else if x ∈ wallKeys s then 8
       else 0) =
      (if containsKey s.blocks x then (2 : ℤ)
       else if containsKey s.goals x then 4
       else if containsKey s.walls x then 8
       else 0) := by
    intro x
    by_cases hb : containsKey s.blocks x = true
    · rw [if_pos ((containsKey_mem_keys _ _).mp hb), if_pos hb]
    · rw [if_neg (fun hh => hb ((containsKey_mem_keys _ _).mpr hh)), if_neg hb]
      by_cases hg : containsKey s.goals x = true
      · rw [if_pos ((containsKey_mem_keys _ _).mp hg), if_pos hg]
      · rw [if_neg (fun hh => hg ((containsKey_mem_keys _ _).mpr hh)),
          if_neg hg]
        by_cases hw : containsKey s.walls x = true
        · rw [if_pos (show x ∈ wallKeys s from (containsKey_mem_keys _ _).mp hw),
            if_pos hw]
        · rw [if_neg (show ¬(x ∈ wallKeys s) from
              fun hh => hw ((containsKey_mem_keys _ _).mpr hh)),
            if_neg hw]
  cases hpl : s.player with
  | none =>
    refine ⟨l3, by rw [hser, hpl], hlen3, hrows3, ?_⟩
    intro i j hi hj
    rw [hcell3 i j hi hj, hcell2 i j hi hj, hcell1 i j hi hj, cellAt_replicate]
    rw [cellValue]
    have hpx : playerIsAt s (Position.mk (mnx + j) (mny + i)) = false := by
      rw [playerIsAt, hpl]
    rw [hpx, if_neg (show ¬(false = true) from by simp)]
    exact hlayers _
  | some pe =>
    obtain ⟨pp, e⟩ := pe
    have hppb : mnx ≤ pp.x ∧ pp.x ≤ mxx ∧ mny ≤ pp.y ∧ pp.y ≤ mxy :=
      hocc pp (Or.inr (Or.inr (by rw [playerIsAt, hpl]; simp)))
    have hpc := hconv pp hppb
    obtain ⟨hpaint, hlen4, hrows4, hcell4⟩ :=
      paint_spec l3 (pp.y - mny) (pp.x - mnx) 1 (1 + mxy - mny).toNat
        (1 + mxx - mnx).toNat hlen3 hrows3 hpc.1 hpc.2.1 hpc.2.2.1 hpc.2.2.2
    refine ⟨setCell l3 (pp.y - mny).toNat (pp.x - mnx).toNat 1,
      by rw [hser, hpl]; exact hpaint, hlen4, hrows4, ?_⟩
    intro i j hi hj
    rw [hcell4 i j, hcell3 i j hi hj, hcell2 i j hi hj, hcell1 i j hi hj,
      cellAt_replicate]
    rw [cellValue]
    have hpx : playerIsAt s (Position.mk (mnx + j) (mny + i)) =
        decide (pp = Position.mk (mnx + j) (mny + i)) := by
      rw [playerIsAt, hpl]
    rw [hpx]
    by_cases hq : pp = Position.mk (mnx + j) (mny + i)
    · have hpy : pp.y = mny + i := by rw [hq]
      have hpx2 : pp.x = mnx + j := by rw [hq]
      rw [if_pos (show i = (pp.y - mny).toNat ∧ j = (pp.x - mnx).toNat from
          ⟨by omega, by omega⟩),
        if_pos (show decide (pp = Position.mk (mnx + j) (mny + i)) = true from
          by simp [hq])]
    · have hne : ¬(i = (pp.y - mny).toNat ∧ j = (pp.x - mnx).toNat) := by
        rintro ⟨hi', hj'⟩
        exact hq (Position.ext_xy (by show pp.x = mnx + j; omega)
          (by show pp.y = mny + i; omega))
      rw [if_neg hne,
        if_neg (show ¬(decide (pp = Position.mk (mnx + j) (mny + i)) = true)
          from by simp [hq])]
      exact hlayers _

/-! ## C1: the exported grid -/

/-- C1 counterexample: an editor state whose walls map is non-empty (a
single wall at the origin) but on which `serialize` does not return a
grid: the block at (5,5) lies outside the wall bounding box, so the Rust
code panics on the out-of-range index (modelled by `none`). -/
theorem claim_C1_counterexample :
    (⟨[], [(⟨0, 0⟩, 0)], [(⟨5, 5⟩, 1)], [], none⟩ : EditingState).walls ≠ [] ∧
      serialize (⟨[], [(⟨0, 0⟩, 0)], [(⟨5, 5⟩, 1)], [], none⟩ : EditingState) =
        none := by
  constructor
  · simp
  · decide

/-- C1 (amended): for every editor state whose walls map is non-empty —
so the minima/maxima over the wall positions exist — and whose block,
goal and player positions all lie within that wall bounding box,
`serialize` returns a rectangular grid of height `(max_y - min_y + 1)`
and width `(max_x - min_x + 1)`; every cell holds the value left by
painting walls → 8, goals → 4, blocks → 2, player → 1 in that order
(later paints overwriting earlier ones), each position translated by
subtracting `min_x`/`min_y`; floor positions are never painted. -/
theorem claim_C1_serialize_grid (s : EditingState) (mnx mxx mny mxy : ℤ)
    (hmnx : listMin ((wallKeys s).map Position.x) = some mnx)
    (hmxx : listMax ((wallKeys s).map Position.x) = some mxx)
    (hmny : listMin ((wallKeys s).map Position.y) = some mny)
    (hmxy : listMax ((wallKeys s).map Position.y) = some mxy)
    (hocc : ∀ q, occupantAt s q →
      mnx ≤ q.x ∧ q.x ≤ mxx ∧ mny ≤ q.y ∧ q.y ≤ mxy) :
    ∃ g, serialize s = some g ∧
      g.length = (1 + mxy - mny).toNat ∧
      (∀ row ∈ g, row.length = (1 + mxx - mnx).toNat) ∧
      ∀ i j : ℕ, i < (1 + mxy - mny).toNat → j < (1 + mxx - mnx).toNat →
        cellAt g i j = cellValue s (Position.mk (mnx + j) (mny + i)) :=
  serialize_spec s mnx mxx mny mxy hmnx hmxx hmny hmxy hocc

theorem claim_C1_serialize_grid_witness :
    (listMin ((wallKeys exampleLevel).map Position.x) = some (-1) ∧
      listMax ((wallKeys exampleLevel).map Position.x) = some 1 ∧
      listMin ((wallKeys exampleLevel).map Position.y) = some (-1) ∧
      listMax ((wallKeys exampleLevel).map Position.y) = some 1 ∧
      (∀ q, occupantAt exampleLevel q →
        -1 ≤ q.x ∧ q.x ≤ 1 ∧ -1 ≤ q.y ∧ q.y ≤ 1)) ∧
    ∃ g, serialize exampleLevel = some g ∧
      g.length = (1 + 1 - (-1 : ℤ)).toNat ∧
      (∀ row ∈ g, row.length = (1 + 1 - (-1 : ℤ)).toNat) ∧
      ∀ i j : ℕ, i < (1 + 1 - (-1 : ℤ)).toNat → j < (1 + 1 - (-1 : ℤ)).toNat →
        cellAt g i j = cellValue exampleLevel (Position.mk (-1 + j) (-1 + i)) := by
  have hocc : ∀ q, occupantAt exampleLevel q →
      -1 ≤ q.x ∧ q.x ≤ 1 ∧ -1 ≤ q.y ∧ q.y ≤ 1 := by
    intro q hq
    obtain ⟨qx, qy⟩ := q
    rcases hq with hb | hg | hpl
    · simp [containsKey, exampleLevel] at hb
    · simp [containsKey, exampleLevel, Position.mk.injEq] at hg
      show (-1 : ℤ) ≤ qx ∧ qx ≤ 1 ∧ (-1 : ℤ) ≤ qy ∧ qy ≤ 1
      omega
    · simp [playerIsAt, exampleLevel] at hpl
  exact ⟨⟨by decide, by decide, by decide, by decide, hocc⟩,
    claim_C1_serialize_grid exampleLevel (-1) 1 (-1) 1
      (by decide) (by decide) (by decide) (by decide) hocc⟩

/-! ## C2: serialize at the two error cases -/

/-- C2: at both claimed error cases the code does not surface an error
result — it panics.  On the empty editor the `min()/max().unwrap()` calls
panic (walls is empty); with a goal at (-2,1) outside the bounding box of
the single wall at (1,1), the `(goal_position.y - min_y) as usize` index
is out of range and the indexing panics.  `none` is this model's value
for a panic: the Rust function's return type `Vec<Vec<i32>>` has no error
variant at all. -/
theorem claim_C2_serialize_panics :
    serialize EditingState.empty = none ∧
      serialize (⟨[], [(⟨1, 1⟩, 0)], [], [(⟨-2, 1⟩, 3)], none⟩ : EditingState) =
        none := by
  constructor
  · decide
  · decide

/-! ## C10: occupants sit on floors, strictly inside the wall box -/

theorem can_place_floor {s : EditingState} {p : Position}
    (h : can_place s p = true) : containsKey s.floors p = true := by
  simp only [can_place, Bool.and_eq_true] at h
  exact h.1.1.1

theorem place_floor_floors_mono (s : EditingState) (q : Position) (fh : ℕ)
    (wh : Position → ℕ) (p : Position) (h : containsKey s.floors p = true) :
    containsKey (place_floor s q fh wh).floors p = true := by
  rw [place_floor_floors]
  split
  · exact h
  · rw [containsKey_insertKey]
    simp [h]

theorem occFl_empty :
    ∀ p, occupantAt EditingState.empty p →
      containsKey EditingState.empty.floors p = true := by
  intro p hp
  rcases hp with hb | hg | hpl
  · simp [containsKey, EditingState.empty] at hb
  · simp [containsKey, EditingState.empty] at hg
  · simp [playerIsAt, EditingState.empty] at hpl

theorem remove_object_occupant {s : EditingState} {q p : Position}
    (h : occupantAt (remove_object s q).2 p) : occupantAt s p := by
  by_cases h1 : containsKey s.blocks q = true
  · have e : (remove_object s q).2 = { s with blocks := eraseKey s.blocks q } := by
      rw [remove_object, if_pos h1]
    rw [e] at h
    rcases h with hb | hg | hpl
    · left
      have hb' : (!decide (p = q) && containsKey s.blocks p) = true := by
        rw [← containsKey_eraseKey]
        exact hb
      exact (by simpa using hb' : ¬(p = q) ∧ containsKey s.blocks p = true).2
    · exact Or.inr (Or.inl hg)
    · exact Or.inr (Or.inr hpl)
  · by_cases h2 : containsKey s.goals q = true
    · have e : (remove_object s q).2 = { s with goals := eraseKey s.goals q } := by
        rw [remove_object, if_neg h1, if_pos h2]
      rw [e] at h
      rcases h with hb | hg | hpl
      · exact Or.inl hb
      · right; left
        have hg' : (!decide (p = q) && containsKey s.goals p) = true := by
          rw [← containsKey_eraseKey]
          exact hg
        exact (by simpa using hg' : ¬(p = q) ∧ containsKey s.goals p = true).2
      · exact Or.inr (Or.inr hpl)
    · by_cases h3 : playerIsAt s q = true
      · have e : (remove_object s q).2 = { s with player := none } := by
          rw [remove_object, if_neg h1, if_neg h2, if_pos h3]
        rw [e] at h
        rcases h with hb | hg | hpl
        · exact Or.inl hb
        · exact Or.inr (Or.inl hg)
        · simp [playerIsAt] at hpl
      · have e : (remove_object s q).2 = s := by
          rw [remove_object, if_neg h1, if_neg h2, if_neg h3]
        rw [e] at h
        exact h

theorem occFl_step (s : EditingState) (c : Cmd)
    (h : ∀ p, occupantAt s p → containsKey s.floors p = true) :
    ∀ p, occupantAt (step s c) p → containsKey (step s c).floors p = true := by
  cases c with
  | placeFloor q fh wh =>
    intro p hp
    have hocc : occupantAt s p := by
      rcases hp with hb | hg | hpl
      · exact Or.inl (by rw [← (place_floor_fields s q fh wh).1]; exact hb)
      · exact Or.inr (Or.inl (by rw [← (place_floor_fields s q fh wh).2.1]; exact hg))
      · refine Or.inr (Or.inr ?_)
        rw [playerIsAt] at hpl ⊢
        rw [← (place_floor_fields s q fh wh).2.2]
        exact hpl
    exact place_floor_floors_mono s q fh wh p (h p hocc)
  | placeBlock q hh =>
    intro p hp
    simp only [step] at hp ⊢
    rw [(place_block_fields s q hh).1]
    by_cases hc : can_place s q = true
    · rw [place_block, if_pos hc] at hp
      rcases hp with hb | hg | hpl
      · rw [containsKey_insertKey] at hb
        rcases (by simpa using hb : p = q ∨ containsKey s.blocks p = true)
          with rfl | hb2
        · exact can_place_floor hc
        · exact h p (Or.inl hb2)
      · exact h p (Or.inr (Or.inl hg))
      · exact h p (Or.inr (Or.inr hpl))
    · rw [place_block, if_neg hc] at hp
      exact h p hp
  | placeGoal q hh =>
    intro p hp
    simp only [step] at hp ⊢
    rw [(place_goal_fields s q hh).1]
    by_cases hc : can_place s q = true
    · rw [place_goal, if_pos hc] at hp
      rcases hp with hb | hg | hpl
      · exact h p (Or.inl hb)
      · rw [containsKey_insertKey] at hg
        rcases (by simpa using hg : p = q ∨ containsKey s.goals p = true)
          with rfl | hg2
        · exact can_place_floor hc
        · exact h p (Or.inr (Or.inl hg2))
      · exact h p (Or.inr (Or.inr hpl))
    · rw [place_goal, if_neg hc] at hp
      exact h p hp
  | placePlayer q hh =>
    intro p hp
    simp only [step] at hp ⊢
    rw [(place_player_fields s q hh).1]
    by_cases hc : can_place s q = true
    · rw [place_player, if_pos hc] at hp
      rcases hp with hb | hg | hpl
      · exact h p (Or.inl hb)
      · exact h p (Or.inr (Or.inl hg))
      · have : q = p := by simpa [playerIsAt] using hpl
        rw [← this]
        exact can_place_floor hc
    · rw [place_player, if_neg hc] at hp
      exact h p hp
  | removeObj q =>
    intro p hp
    simp only [step] at hp ⊢
    rw [(remove_object_fields s q).1]
    exact h p (remove_object_occupant hp)

theorem floors_lt_wall_max_x (s : EditingState) (hbi : borderInv s)
    {p : Position} (hp : containsKey s.floors p = true) {mxx : ℤ}
    (hmxx : listMax ((wallKeys s).map Position.x) = some mxx) : p.x < mxx := by
  have hpF : p ∈ s.floors.map Prod.fst := (containsKey_mem_keys _ _).mp hp
  have hne : (s.floors.map Prod.fst).map Position.x ≠ [] := by
    intro hnil
    rw [List.map_eq_nil_iff] at hnil
    rw [hnil] at hpF
    simp at hpF
  obtain ⟨M, hM⟩ := listMax_isSome _ hne
  obtain ⟨f, hfF, hfx⟩ : ∃ f ∈ s.floors.map Prod.fst, f.x = M := by
    have := listMax_mem hM
    exact List.mem_map.mp this
  have hgmem : (f.add 1 0) ∈ neighbors f :=
    List.mem_map.mpr ⟨(1, 0), by decide, rfl⟩
  have hgf : containsKey s.floors (f.add 1 0) = false := by
    by_cases hc : containsKey s.floors (f.add 1 0) = true
    · exfalso
      have hmem : (f.add 1 0) ∈ s.floors.map Prod.fst :=
        (containsKey_mem_keys _ _).mp hc
      have hle : (f.add 1 0).x ≤ M :=
        listMax_ge hM _ (List.mem_map_of_mem Position.x hmem)
      have hgx : (f.add 1 0).x = f.x + 1 := rfl
      omega
    · exact Bool.eq_false_iff.mpr hc
  have hfloor : containsKey s.floors f = true := (containsKey_mem_keys _ _).mpr hfF
  have hwg : containsKey s.walls (f.add 1 0) = true :=
    hbi f (f.add 1 0) hfloor hgmem hgf
  have hle2 : (f.add 1 0).x ≤ mxx :=
    listMax_ge hmxx _
      (List.mem_map_of_mem Position.x ((containsKey_mem_keys _ _).mp hwg))
  have hple : p.x ≤ M := listMax_ge hM _ (List.mem_map_of_mem Position.x hpF)
  have hgx : (f.add 1 0).x = f.x + 1 := rfl
  omega

theorem floors_gt_wall_min_x (s : EditingState) (hbi : borderInv s)
    {p : Position} (hp : containsKey s.floors p = true) {mnx : ℤ}
    (hmnx : listMin ((wallKeys s).map Position.x) = some mnx) : mnx < p.x := by
  have hpF : p ∈ s.floors.map Prod.fst := (containsKey_mem_keys _ _).mp hp
  have hne : (s.floors.map Prod.fst).map Position.x ≠ [] := by
    intro hnil
    rw [List.map_eq_nil_iff] at hnil
    rw [hnil] at hpF
    simp at hpF
  obtain ⟨M, hM⟩ := listMin_isSome _ hne
  obtain ⟨f, hfF, hfx⟩ : ∃ f ∈ s.floors.map Prod.fst, f.x = M := by
    have := listMin_mem hM
    exact List.mem_map.mp this
  have hgmem : (f.add (-1) 0) ∈ neighbors f :=
    List.mem_map.mpr ⟨(-1, 0), by decide, rfl⟩
  have hgf : containsKey s.floors (f.add (-1) 0) = false := by
    by_cases hc : containsKey s.floors (f.add (-1) 0) = true
    · exfalso
      have hmem : (f.add (-1) 0) ∈ s.floors.map Prod.fst :=
        (containsKey_mem_keys _ _).mp hc
      have hle : M ≤ (f.add (-1) 0).x :=
        listMin_le hM _ (List.mem_map_of_mem Position.x hmem)
      have hgx : (f.add (-1) 0).x = f.x + (-1) := rfl
      omega
    · exact Bool.eq_false_iff.mpr hc
  have hfloor : containsKey s.floors f = true := (containsKey_mem_keys _ _).mpr hfF
  have hwg : containsKey s.walls (f.add (-1) 0) = true :=
    hbi f (f.add (-1) 0) hfloor hgmem hgf
  have hle2 : mnx ≤ (f.add (-1) 0).x :=
    listMin_le hmnx _
      (List.mem_map_of_mem Position.x ((containsKey_mem_keys _ _).mp hwg))
  have hple : M ≤ p.x := listMin_le hM _ (List.mem_map_of_mem Position.x hpF)
  have hgx : (f.add (-1) 0).x = f.x + (-1) := rfl
  omega

theorem floors_lt_wall_max_y (s : EditingState) (hbi : borderInv s)
    {p : Position} (hp : containsKey s.floors p = true) {mxy : ℤ}
    (hmxy : listMax ((wallKeys s).map Position.y) = some mxy) : p.y < mxy := by
  have hpF : p ∈ s.floors.map Prod.fst := (containsKey_mem_keys _ _).mp hp
  have hne : (s.floors.map Prod.fst).map Position.y ≠ [] := by
    intro hnil
    rw [List.map_eq_nil_iff] at hnil
    rw [hnil] at hpF
    simp at hpF
  obtain ⟨M, hM⟩ := listMax_isSome _ hne
  obtain ⟨f, hfF, hfy⟩ : ∃ f ∈ s.floors.map Prod.fst, f.y = M := by
    have := listMax_mem hM
    exact List.mem_map.mp this
  have hgmem : (f.add 0 1) ∈ neighbors f :=
    List.mem_map.mpr ⟨(0, 1), by decide, rfl⟩
  have hgf : containsKey s.floors (f.add 0 1) = false := by
    by_cases hc : containsKey s.floors (f.add 0 1) = true
    · exfalso
      have hmem : (f.add 0 1) ∈ s.floors.map Prod.fst :=
        (containsKey_mem_keys _ _).mp hc
      have hle : (f.add 0 1).y ≤ M :=
        listMax_ge hM _ (List.mem_map_of_mem Position.y hmem)
      have hgy : (f.add 0 1).y = f.y + 1 := rfl
      omega
    · exact Bool.eq_false_iff.mpr hc
  have hfloor : containsKey s.floors f = true := (containsKey_mem_keys _ _).mpr hfF
  have hwg : containsKey s.walls (f.add 0 1) = true :=
    hbi f (f.add 0 1) hfloor hgmem hgf
  have hle2 : (f.add 0 1).y ≤ mxy :=
    listMax_ge hmxy _
      (List.mem_map_of_mem Position.y ((containsKey_mem_keys _ _).mp hwg))
  have hple : p.y ≤ M := listMax_ge hM _ (List.mem_map_of_mem Position.y hpF)
  have hgy : (f.add 0 1).y = f.y + 1 := rfl
  omega

theorem floors_gt_wall_min_y (s : EditingState) (hbi : borderInv s)
    {p : Position} (hp : containsKey s.floors p = true) {mny : ℤ}
    (hmny : listMin ((wallKeys s).map Position.y) = some mny) : mny < p.y := by
  have hpF : p ∈ s.floors.map Prod.fst := (containsKey_mem_keys _ _).mp hp
  have hne : (s.floors.map Prod.fst).map Position.y ≠ [] := by
    intro hnil
    rw [List.map_eq_nil_iff] at hnil
    rw [hnil] at hpF
    simp at hpF
  obtain ⟨M, hM⟩ := listMin_isSome _ hne
  obtain ⟨f, hfF, hfy⟩ : ∃ f ∈ s.floors.map Prod.fst, f.y = M := by
    have := listMin_mem hM
    exact List.mem_map.mp this
  have hgmem : (f.add 0 (-1)) ∈ neighbors f :=
    List.mem_map.mpr ⟨(0, -1), by decide, rfl⟩
  have hgf : containsKey s.floors (f.add 0 (-1)) = false := by
    by_cases hc : containsKey s.floors (f.add 0 (-1)) = true
    · exfalso
      have hmem : (f.add 0 (-1)) ∈ s.floors.map Prod.fst :=
        (containsKey_mem_keys _ _).mp hc
      have hle : M ≤ (f.add 0 (-1)).y :=
        listMin_le hM _ (List.mem_map_of_mem Position.y hmem)
      have hgy : (f.add 0 (-1)).y = f.y + (-1) := rfl
      omega
    · exact Bool.eq_false_iff.mpr hc
  have hfloor : containsKey s.floors f = true := (containsKey_mem_keys _ _).mpr hfF
  have hwg : containsKey s.walls (f.add 0 (-1)) = true :=
    hbi f (f.add 0 (-1)) hfloor hgmem hgf
  have hle2 : mny ≤ (f.add 0 (-1)).y :=
    listMin_le hmny _
      (List.mem_map_of_mem Position.y ((containsKey_mem_keys _ _).mp hwg))
  have hple : M ≤ p.y := listMin_le hM _ (List.mem_map_of_mem Position.y hpF)
  have hgy : (f.add 0 (-1)).y = f.y + (-1) := rfl
  omega

/-! ## C4: the wall-border invariant -/

theorem borderInv_congr {s s' : EditingState} (hf : s'.floors = s.floors)
    (hw : s'.walls = s.walls) (h : borderInv s) : borderInv s' := by
  intro p q hp hq hnq
  rw [hf] at hp hnq
  rw [hw]
  exact h p q hp hq hnq

theorem borderInv_place_floor (s : EditingState) (p : Position) (fh : ℕ)
    (wh : Position → ℕ) (h : borderInv s) :
    borderInv (place_floor s p fh wh) := by
  by_cases hnf : containsKey s.floors p = true
  · have heq : place_floor s p fh wh = s := by simp [place_floor, hnf]
    rw [heq]
    exact h
  · intro f q hf hq hnq
    rw [place_floor_floors, if_neg hnf, containsKey_insertKey] at hf hnq
    have hf2 : f = p ∨ containsKey s.floors f = true := by simpa using hf
    have hnq2 : ¬(q = p) ∧ containsKey s.floors q = false := by simpa using hnq
    rw [containsKey_eq_isSome_lookup, place_floor_walls_lookup s p fh wh q hnf]
    have hL2 : (if q = p then (none : Option ℕ) else lookup s.walls q) =
        lookup s.walls q := if_neg hnq2.1
    rcases hf2 with rfl | hfs
    · have hex : ∃ o ∈ wall_combinations, q = Position.add f o.1 o.2 := by
        obtain ⟨o, ho, hqo⟩ := List.mem_map.mp hq
        exact ⟨o, ho, hqo.symm⟩
      by_cases hwq : lookup s.walls q = none
      · rw [if_pos ⟨hex, by rw [containsKey_insertKey]; simp [hnq2.1, hnq2.2],
          by rw [hL2]; exact hwq⟩]
        rfl
      · rw [if_neg (by rintro ⟨-, -, hc⟩; rw [hL2] at hc; exact hwq hc), hL2]
        cases hlw : lookup s.walls q with
        | none => exact absurd hlw hwq
        | some v => rfl
    · have hwall := h f q hfs hq hnq2.2
      obtain ⟨v, hv⟩ := lookup_isSome_of_containsKey hwall
      have hCfalse : ¬((∃ o ∈ wall_combinations, q = Position.add p o.1 o.2) ∧
          containsKey (insertKey s.floors p fh) q = false ∧
          (if q = p then none else lookup s.walls q) = (none : Option ℕ)) := by
        rintro ⟨-, -, hc⟩
        rw [hL2, hv] at hc
        exact Option.noConfusion hc
      rw [if_neg hCfalse, hL2, hv]
      rfl

theorem borderInv_empty : borderInv EditingState.empty := by
  intro p q hp hq hnq
  simp [containsKey, EditingState.empty] at hp

theorem borderInv_step (s : EditingState) (c : Cmd) (h : borderInv s) :
    borderInv (step s c) := by
  cases c with
  | placeFloor p fh wh => exact borderInv_place_floor s p fh wh h
  | placeBlock p hh =>
    exact borderInv_congr (place_block_fields s p hh).1
      (place_block_fields s p hh).2.1 h
  | placeGoal p hh =>
    exact borderInv_congr (place_goal_fields s p hh).1
      (place_goal_fields s p hh).2.1 h
  | placePlayer p hh =>
    exact borderInv_congr (place_player_fields s p hh).1
      (place_player_fields s p hh).2.1 h
  | removeObj p =>
    exact borderInv_congr (remove_object_fields s p).1
      (remove_object_fields s p).2 h

/-- C4: in every state reachable from the empty editor, every cell that is
an 8-neighbor of a floor cell and is not itself a floor holds a wall; the
invariant is preserved by `place_floor`, which moreover creates a wall
(with the supplied handle) at each 8-neighbor of the placed position that
had neither a floor nor a wall. -/
theorem claim_C4_wall_border (s : EditingState) (hs : Reachable s) :
    borderInv s ∧
      (∀ p fh wh, borderInv (place_floor s p fh wh)) ∧
      (∀ p fh wh q, containsKey s.floors p = false → q ∈ neighbors p →
        containsKey s.floors q = false → containsKey s.walls q = false →
        lookup (place_floor s p fh wh).walls q = some (wh q)) := by
  have hinv : borderInv s :=
    reachable_invariant borderInv borderInv_empty borderInv_step s hs
  refine ⟨hinv, fun p fh wh => borderInv_place_floor s p fh wh hinv, ?_⟩
  intro p fh wh q hp hq hfq hwq
  have hnf : ¬(containsKey s.floors p = true) := by rw [hp]; simp
  rw [place_floor_walls_lookup s p fh wh q hnf]
  have hqp : ¬(q = p) := neighbor_ne p q hq
  have hex : ∃ o ∈ wall_combinations, q = Position.add p o.1 o.2 := by
    obtain ⟨o, ho, hqo⟩ := List.mem_map.mp hq
    exact ⟨o, ho, hqo.symm⟩
  rw [if_pos ⟨hex, by rw [containsKey_insertKey]; simp [hqp, hfq],
    by rw [if_neg hqp]; exact (containsKey_eq_false_iff_lookup s.walls q).mp hwq⟩]

theorem claim_C4_wall_border_witness :
    borderInv (run [Cmd.placeFloor ⟨0, 0⟩ 0 fun _ => 1] EditingState.empty) ∧
      (∀ p fh wh, borderInv (place_floor
        (run [Cmd.placeFloor ⟨0, 0⟩ 0 fun _ => 1] EditingState.empty) p fh wh)) ∧
      (∀ p fh wh q,
        containsKey (run [Cmd.placeFloor ⟨0, 0⟩ 0 fun _ => 1]
          EditingState.empty).floors p = false →
        q ∈ neighbors p →
        containsKey (run [Cmd.placeFloor ⟨0, 0⟩ 0 fun _ => 1]
          EditingState.empty).floors q = false →
        containsKey (run [Cmd.placeFloor ⟨0, 0⟩ 0 fun _ => 1]
          EditingState.empty).walls q = false →
        lookup (place_floor (run [Cmd.placeFloor ⟨0, 0⟩ 0 fun _ => 1]
          EditingState.empty) p fh wh).walls q = some (wh q)) :=
  claim_C4_wall_border _ ⟨[Cmd.placeFloor ⟨0, 0⟩ 0 fun _ => 1], rfl⟩

/-! ## C8: floors and walls are mutually exclusive -/

theorem excl_congr {s s' : EditingState} (hf : s'.floors = s.floors)
    (hw : s'.walls = s.walls)
    (h : ∀ r, ¬(containsKey s.floors r = true ∧ containsKey s.walls r = true)) :
    ∀ r, ¬(containsKey s'.floors r = true ∧ containsKey s'.walls r = true) := by
  intro r hr
  rw [hf, hw] at hr
  exact h r hr

theorem excl_place_floor (s : EditingState) (p : Position) (fh : ℕ)
    (wh : Position → ℕ)
    (h : ∀ r, ¬(containsKey s.floors r = true ∧ containsKey s.walls r = true)) :
    ∀ r, ¬(containsKey (place_floor s p fh wh).floors r = true ∧
      containsKey (place_floor s p fh wh).walls r = true) := by
  by_cases hnf : containsKey s.floors p = true
  · have heq : place_floor s p fh wh = s := by simp [place_floor, hnf]
    rw [heq]
    exact h
  · rintro r ⟨hfr, hwr⟩
    rw [place_floor_floors, if_neg hnf] at hfr
    rw [containsKey_eq_isSome_lookup,
      place_floor_walls_lookup s p fh wh r hnf] at hwr
    by_cases hrp : r = p
    · subst hrp
      rw [if_pos rfl] at hwr
      revert hwr
      split
      next hC =>
        intro _
        have h21 := hC.2.1
        rw [hfr] at h21
        exact Bool.noConfusion h21
      next hC =>
        intro hwr
        simp at hwr
    · rw [if_neg hrp] at hwr
      revert hwr
      split
      next hC =>
        intro _
        have h21 := hC.2.1
        rw [hfr] at h21
        exact Bool.noConfusion h21
      next hC =>
        intro hwr
        have hcw : containsKey s.walls r = true := by
          rw [containsKey_eq_isSome_lookup]
          exact hwr
        have hfs : containsKey s.floors r = true := by
          rw [containsKey_insertKey] at hfr
          rcases (by simpa using hfr : r = p ∨ containsKey s.floors r = true)
            with h1 | h1
          · exact absurd h1 hrp
          · exact h1
        exact h r ⟨hfs, hcw⟩

theorem excl_empty :
    ∀ r, ¬(containsKey EditingState.empty.floors r = true ∧
      containsKey EditingState.empty.walls r = true) := by
  rintro r ⟨h1, -⟩
  simp [containsKey, EditingState.empty] at h1

theorem excl_step (s : EditingState) (c : Cmd)
    (h : ∀ r, ¬(containsKey s.floors r = true ∧ containsKey s.walls r = true)) :
    ∀ r, ¬(containsKey (step s c).floors r = true ∧
      containsKey (step s c).walls r = true) := by
  cases c with
  | placeFloor p fh wh => exact excl_place_floor s p fh wh h
  | placeBlock p hh =>
    exact excl_congr (place_block_fields s p hh).1
      (place_block_fields s p hh).2.1 h
  | placeGoal p hh =>
    exact excl_congr (place_goal_fields s p hh).1
      (place_goal_fields s p hh).2.1 h
  | placePlayer p hh =>
    exact excl_congr (place_player_fields s p hh).1
      (place_player_fields s p hh).2.1 h
  | removeObj p =>
    exact excl_congr (remove_object_fields s p).1
      (remove_object_fields s p).2 h

/-- C8: in every reachable editor state no cell holds both a floor and a
wall; moreover `place_floor` at a floorless cell leaves no wall recorded
at that cell (it removes any wall there, and the border loop never puts
one back at the placed position). -/
theorem claim_C8_floors_walls_exclusive (s : EditingState) (hs : Reachable s) :
    (∀ p, ¬(containsKey s.floors p = true ∧ containsKey s.walls p = true)) ∧
      (∀ p fh wh, containsKey s.floors p = false →
        lookup (place_floor s p fh wh).walls p = none) := by
  refine ⟨reachable_invariant _ excl_empty excl_step s hs, ?_⟩
  intro p fh wh hp
  have hnf : ¬(containsKey s.floors p = true) := by rw [hp]; simp
  rw [place_floor_walls_lookup s p fh wh p hnf]
  rw [if_neg (fun hc => not_self_neighbor p hc.1), if_pos rfl]

theorem claim_C8_floors_walls_exclusive_witness :
    (∀ p, ¬(containsKey EditingState.empty.floors p = true ∧
      containsKey EditingState.empty.walls p = true)) ∧
      (∀ p fh wh, containsKey EditingState.empty.floors p = false →
        lookup (place_floor EditingState.empty p fh wh).walls p = none) :=
  claim_C8_floors_walls_exclusive EditingState.empty ⟨[], rfl⟩

/-- C10: in every state reachable from the empty editor, every block
position, every goal position, and the player position (if any) holds a
floor; consequently, whenever the walls map is non-empty, every such
occupant position lies strictly inside the bounding box of the wall
positions, and `serialize` succeeds — all its occupant-painting indices
are in range. -/
theorem claim_C10_occupants_on_floors (s : EditingState) (hs : Reachable s) :
    (∀ p, occupantAt s p → containsKey s.floors p = true) ∧
      (s.walls ≠ [] →
        (∀ p mnx mxx mny mxy, occupantAt s p →
          listMin ((wallKeys s).map Position.x) = some mnx →
          listMax ((wallKeys s).map Position.x) = some mxx →
          listMin ((wallKeys s).map Position.y) = some mny →
          listMax ((wallKeys s).map Position.y) = some mxy →
          mnx < p.x ∧ p.x < mxx ∧ mny < p.y ∧ p.y < mxy) ∧
        ∃ g, serialize s = some g) := by
  have hof : ∀ p, occupantAt s p → containsKey s.floors p = true :=
    reachable_invariant _ occFl_empty occFl_step s hs
  have hbi : borderInv s :=
    reachable_invariant borderInv borderInv_empty borderInv_step s hs
  refine ⟨hof, ?_⟩
  intro hwne
  have hkx : (wallKeys s).map Position.x ≠ [] := by
    intro hnil
    rw [List.map_eq_nil_iff, wallKeys, List.map_eq_nil_iff] at hnil
    exact hwne hnil
  have hky : (wallKeys s).map Position.y ≠ [] := by
    intro hnil
    rw [List.map_eq_nil_iff, wallKeys, List.map_eq_nil_iff] at hnil
    exact hwne hnil
  constructor
  · intro p mnx mxx mny mxy hp hmnx hmxx hmny hmxy
    have hfl : containsKey s.floors p = true := hof p hp
    exact ⟨floors_gt_wall_min_x s hbi hfl hmnx,
      floors_lt_wall_max_x s hbi hfl hmxx,
      floors_gt_wall_min_y s hbi hfl hmny,
      floors_lt_wall_max_y s hbi hfl hmxy⟩
  · obtain ⟨mnx, hmnx⟩ := listMin_isSome _ hkx
    obtain ⟨mxx, hmxx⟩ := listMax_isSome _ hkx
    obtain ⟨mny, hmny⟩ := listMin_isSome _ hky
    obtain ⟨mxy, hmxy⟩ := listMax_isSome _ hky
    have hocc : ∀ q, occupantAt s q →
        mnx ≤ q.x ∧ q.x ≤ mxx ∧ mny ≤ q.y ∧ q.y ≤ mxy := by
      intro q hq
      have hfl := hof q hq
      exact ⟨le_of_lt (floors_gt_wall_min_x s hbi hfl hmnx),
        le_of_lt (floors_lt_wall_max_x s hbi hfl hmxx),
        le_of_lt (floors_gt_wall_min_y s hbi hfl hmny),
        le_of_lt (floors_lt_wall_max_y s hbi hfl hmxy)⟩
    obtain ⟨g, hg, -, -, -⟩ :=
      serialize_spec s mnx mxx mny mxy hmnx hmxx hmny hmxy hocc
    exact ⟨g, hg⟩

theorem claim_C10_occupants_on_floors_witness :
    (∀ p, occupantAt
        (run [Cmd.placeFloor ⟨0, 0⟩ 0 fun _ => 1, Cmd.placeBlock ⟨0, 0⟩ 2]
          EditingState.empty) p →
      containsKey (run [Cmd.placeFloor ⟨0, 0⟩ 0 fun _ => 1,
        Cmd.placeBlock ⟨0, 0⟩ 2] EditingState.empty).floors p = true) ∧
      ((run [Cmd.placeFloor ⟨0, 0⟩ 0 fun _ => 1, Cmd.placeBlock ⟨0, 0⟩ 2]
          EditingState.empty).walls ≠ [] →
        (∀ p mnx mxx mny mxy,
          occupantAt (run [Cmd.placeFloor ⟨0, 0⟩ 0 fun _ => 1,
            Cmd.placeBlock ⟨0, 0⟩ 2] EditingState.empty) p →
          listMin ((wallKeys (run [Cmd.placeFloor ⟨0, 0⟩ 0 fun _ => 1,
            Cmd.placeBlock ⟨0, 0⟩ 2] EditingState.empty)).map Position.x) =
            some mnx →
          listMax ((wallKeys (run [Cmd.placeFloor ⟨0, 0⟩ 0 fun _ => 1,
            Cmd.placeBlock ⟨0, 0⟩ 2] EditingState.empty)).map Position.x) =
            some mxx →
          listMin ((wallKeys (run [Cmd.placeFloor ⟨0, 0⟩ 0 fun _ => 1,
            Cmd.placeBlock ⟨0, 0⟩ 2] EditingState.empty)).map Position.y) =
            some mny →
          listMax ((wallKeys (run [Cmd.placeFloor ⟨0, 0⟩ 0 fun _ => 1,
            Cmd.placeBlock ⟨0, 0⟩ 2] EditingState.empty)).map Position.y) =
            some mxy →
          mnx < p.x ∧ p.x < mxx ∧ mny < p.y ∧ p.y < mxy) ∧
        ∃ g, serialize (run [Cmd.placeFloor ⟨0, 0⟩ 0 fun _ => 1,
          Cmd.placeBlock ⟨0, 0⟩ 2] EditingState.empty) = some g) :=
  claim_C10_occupants_on_floors _
    ⟨[Cmd.placeFloor ⟨0, 0⟩ 0 fun _ => 1, Cmd.placeBlock ⟨0, 0⟩ 2], rfl⟩

theorem claim_C9_idempotent_order_independent_witness :
    (wall_combinations.reverse).Perm wall_combinations ∧
      (place_floor (place_floor EditingState.empty ⟨0, 0⟩ 0 (fun _ => 1))
          ⟨0, 0⟩ 2 (fun _ => 3) =
        place_floor EditingState.empty ⟨0, 0⟩ 0 (fun _ => 1) ∧
      EquivState
        (place_floor_with wall_combinations.reverse EditingState.empty
          ⟨0, 0⟩ 0 (fun _ => 1))
        (place_floor EditingState.empty ⟨0, 0⟩ 0 (fun _ => 1))) :=
  ⟨by decide,
    claim_C9_idempotent_order_independent EditingState.empty ⟨0, 0⟩ 0 2
      (fun _ => 1) (fun _ => 3) wall_combinations.reverse (by decide)⟩

end Sokoban
